import Mathlib

/-!
Verification development for the XXZZ rotated-surface-code lattice
(`topological_codes/circuits/xxzz.py`).

The Python source is shallowly embedded below.  Conventions:

* Python `int` is `ℤ`; loop counters and list positions that are
  provably non-negative in the modelled domain (`d ≥ 1`) are `ℕ`, with
  `ℕ`-division coinciding with Python floor division on non-negative
  operands.  Data-qubit indices stored in plaquette records are kept in
  `ℤ` (the source computes them with subtractions).
* Bit strings (measurement readouts, syndrome strings) are `List Bool`,
  most-significant-character first, exactly as the Python `str` values.
* `float` coordinate triples are `ℚ × ℚ × ℚ`; every float produced by
  the source is a small half-integer, so rational arithmetic is exact.
* Fallible code (`raise LatticeError`) is embedded with `Except String`.
-/

/-- Coordinate triple `(t, row, col)` — the Python `TQubit = Tuple[float,float,float]`. -/
abbrev TQubitCoord := ℚ × ℚ × ℚ

/-- One plaquette record `[syn, top_l, top_r, bot_l, bot_r]` as appended by
`_XXZZLattice._geometry`; `none` is Python `None` (absent neighbor). -/
structure Plaq where
  syn : ℕ
  top_l : Option ℤ
  top_r : Option ℤ
  bot_l : Option ℤ
  bot_r : Option ℤ
deriving DecidableEq, Repr

/-- Source: `params["num_syn"] = (d**2 - 1)//2` in `_XXZZLattice.__init__` (for the
`d ≥ 1` domain where the subtraction and floor division are the `ℕ` ones). -/
def numSyn (d : ℕ) : ℕ := (d ^ 2 - 1) / 2

/-- Source: `params["num_data"] = d**2`. -/
def numData (d : ℕ) : ℕ := d ^ 2

/-- The `mx` (X-syndrome) plaquette built by the first loop of
`_XXZZLattice._geometry` for a given `syn` index. -/
def mxPlaq (d : ℕ) (syn : ℕ) : Plaq :=
  let per_row_x : ℕ := (d - 1) / 2
  let row : ℕ := syn / per_row_x
  let offset : ℕ := syn % per_row_x
  let start : ℤ := ((row : ℤ) - 1) * (d : ℤ)
  let row_parity : ℤ := (row : ℤ) % 2
  if row = 0 then      -- First row
    { syn := syn, top_l := none, top_r := none,
      bot_l := some ((syn : ℤ) * 2), bot_r := some ((syn : ℤ) * 2 + 1) }
  else if row = d then -- Last row
    { syn := syn, top_l := some ((syn : ℤ) * 2 + 1), top_r := some ((syn : ℤ) * 2 + 2),
      bot_l := none, bot_r := none }
  else
    { syn := syn,
      top_l := some (start + offset * 2 + row_parity),
      top_r := some (start + offset * 2 + row_parity + 1),
      bot_l := some (start + (d : ℤ) + offset * 2 + row_parity),
      bot_r := some (start + (d : ℤ) + offset * 2 + row_parity + 1) }

/-- The `mz` (Z-syndrome) plaquette built by the second loop of
`_XXZZLattice._geometry` for a given `syn` index. -/
def mzPlaq (d : ℕ) (syn : ℕ) : Plaq :=
  let per_row_z : ℕ := (d + 1) / 2
  let row : ℕ := syn / per_row_z
  let offset : ℕ := syn % per_row_z
  let start : ℤ := (row : ℤ) * (d : ℤ)
  let row_parity : ℤ := (row : ℤ) % 2
  let top_l : ℤ := start + offset * 2 - row_parity
  let top_r : ℤ := start + offset * 2 - row_parity + 1
  let bot_l : ℤ := start + (d : ℤ) + offset * 2 - row_parity
  let bot_r : ℤ := start + (d : ℤ) + offset * 2 - row_parity + 1
  -- Overwrite edge column syndromes
  if row_parity = 0 ∧ offset = per_row_z - 1 then      -- Last column
    { syn := syn, top_l := some top_l, top_r := none,
      bot_l := some bot_l, bot_r := none }
  else if row_parity = 1 ∧ offset = 0 then             -- First column
    { syn := syn, top_l := none, top_r := some top_r,
      bot_l := none, bot_r := some bot_r }
  else
    { syn := syn, top_l := some top_l, top_r := some top_r,
      bot_l := some bot_l, bot_r := some bot_r }

/-- The list `geometry["mx"]` built by the first `for syn in range(num_syn)` loop. -/
def geometryMx (d : ℕ) : List Plaq := (List.range (numSyn d)).map (mxPlaq d)

/-- The list `geometry["mz"]` built by the second `for syn in range(num_syn)` loop. -/
def geometryMz (d : ℕ) : List Plaq := (List.range (numSyn d)).map (mzPlaq d)

/-- Whether `v` occurs among the top neighbors of a plaquette record. -/
def inTop (v : ℤ) (p : Plaq) : Bool := p.top_l == some v || p.top_r == some v

/-- Whether `v` occurs among the bottom neighbors of a plaquette record. -/
def inBot (v : ℤ) (p : Plaq) : Bool := p.bot_l == some v || p.bot_r == some v

/-- Whether `v` occurs among the four neighbors of a plaquette record. -/
def inPlaq (v : ℤ) (p : Plaq) : Bool := inTop v p || inBot v p

/-- In how many `mx` plaquette records the data index `v` occurs as a neighbor. -/
def countMx (d : ℕ) (v : ℤ) : ℕ := (geometryMx d).countP (inPlaq v)

/-- In how many `mz` plaquette records the data index `v` occurs as a neighbor. -/
def countMz (d : ℕ) (v : ℤ) : ℕ := (geometryMz d).countP (inPlaq v)

/-- A qubit reference: which quantum register of the lattice, and the index in it.
(`qregisters["data"][i]`, `qregisters["mx"][i]`, `qregisters["mz"][i]`,
`qregisters["ancilla"][0]`.) -/
inductive QRef
  | data (i : ℤ)
  | mx (i : ℕ)
  | mz (i : ℕ)
  | ancilla
deriving DecidableEq, Repr

/-- One primitive circuit instruction appended to the shared `QuantumCircuit`.
`measure q T bit` records a measurement of `q` into bit `bit` of the classical
register allocated by the round labelled `T`. -/
inductive Op
  | h (q : QRef)
  | cx (control target : QRef)
  | measure (q : QRef) (creg : ℤ) (bit : ℕ)
  | reset (q : QRef)
  | barrier
deriving DecidableEq, Repr

/-- Source: `_XXXX.entangle` (X-syndrome plaquette, traversal in reverse "Z" pattern).
Python truthiness of a `Qubit`-or-`None` entry is `Option.isSome`; a raised
`LatticeError` is `Except.error`, and no gate precedes the raise. -/
def xxxxEntangle (syndrome : QRef) (top_l top_r bot_l bot_r : Option QRef) :
    Except String (List Op) :=
  if (top_r.isSome && !top_l.isSome) || (bot_r.isSome && !bot_l.isSome) then
    .error "Inconsistent X syndrome connections"
  else
    .ok ([Op.h syndrome]
      ++ (match top_r, top_l with   -- if top_r: cx(syndrome, top_r); cx(syndrome, top_l)
          | some tr, some tl => [Op.cx syndrome tr, Op.cx syndrome tl]
          | _, _ => [])
      ++ (match bot_r, bot_l with   -- if bot_r: cx(syndrome, bot_r); cx(syndrome, bot_l)
          | some br, some bl => [Op.cx syndrome br, Op.cx syndrome bl]
          | _, _ => [])
      ++ [Op.h syndrome])

/-- Source: `_ZZZZ.entangle` (Z-syndrome plaquette, traversal in reverse "N" pattern). -/
def zzzzEntangle (syndrome : QRef) (top_l top_r bot_l bot_r : Option QRef) :
    Except String (List Op) :=
  if (top_r.isSome && !bot_r.isSome) || (top_l.isSome && !bot_l.isSome) then
    .error "Inconsistent Z syndrome connections"
  else
    .ok ((match top_r, bot_r with   -- if top_r: cx(top_r, syndrome); cx(bot_r, syndrome)
          | some tr, some br => [Op.cx tr syndrome, Op.cx br syndrome]
          | _, _ => [])
      ++ (match top_l, bot_l with   -- if top_l: cx(top_l, syndrome); cx(bot_l, syndrome)
          | some tl, some bl => [Op.cx tl syndrome, Op.cx bl syndrome]
          | _, _ => []))

/-- The `qubit_indices` entry that `gen_qubit_indices_and_stabilizers` builds for
an `mx`-family plaquette, fed to `_XXXX.entangle`. -/
def plaqOpsX (p : Plaq) : Except String (List Op) :=
  xxxxEntangle (QRef.mx p.syn) (p.top_l.map QRef.data) (p.top_r.map QRef.data)
    (p.bot_l.map QRef.data) (p.bot_r.map QRef.data)

/-- The `qubit_indices` entry that `gen_qubit_indices_and_stabilizers` builds for
an `mz`-family plaquette, fed to `_ZZZZ.entangle`. -/
def plaqOpsZ (p : Plaq) : Except String (List Op) :=
  zzzzEntangle (QRef.mz p.syn) (p.top_l.map QRef.data) (p.top_r.map QRef.data)
    (p.bot_l.map QRef.data) (p.bot_r.map QRef.data)

/-- Sequence a list of fallible gate blocks in order, concatenating their ops. -/
def collectOps : List (Except String (List Op)) → Except String (List Op)
  | [] => .ok []
  | e :: es => do
    let x ← e
    let xs ← collectOps es
    .ok (x ++ xs)

/-- Modelled from the spec: `_TopologicalLattice.entangle` (the generic lattice
driver invoked by `stabilize`) is not under `src/`; per §4.3 of the spec it
"applies every plaquette's protocol across both families", in the blueprint
order of `gen_qubit_indices_and_stabilizers` (all `mx` plaquettes first, then
all `mz` plaquettes, each family in `syn` order). -/
def latticeEntangle (d : ℕ) : Except String (List Op) :=
  collectOps ((geometryMx d).map plaqOpsX ++ (geometryMz d).map plaqOpsZ)

instance exceptDecEq {ε α : Type} [DecidableEq ε] [DecidableEq α] :
    DecidableEq (Except ε α) := fun a b =>
  match a, b with
  | .error e, .error f =>
    if h : e = f then isTrue (h ▸ rfl) else isFalse fun h' => h (Except.error.inj h')
  | .ok x, .ok y =>
    if h : x = y then isTrue (h ▸ rfl) else isFalse fun h' => h (Except.ok.inj h')
  | .error _, .ok _ => isFalse fun h' => Except.noConfusion h'
  | .ok _, .error _ => isFalse fun h' => Except.noConfusion h'

/-- State of the circuit-building lattice object: the round counter
`params["T"]`, the sizes of the classical registers added so far, and the
ordered instruction list of the shared circuit. -/
structure CircState where
  T : ℤ
  cregs : List ℕ
  ops : List Op
deriving DecidableEq, Repr

/-- Source: `XXZZQubit.stabilize`. Bump `params["T"]`, allocate the fresh classical
register `name_c{T}` of size `2*num_syn`, entangle every plaquette, measure the
`mz` register into the low half and the `mx` register into the high half of
the new register, reset both syndrome registers, barrier.  (Qiskit's
register-to-register `measure` is index-aligned.) -/
def stabilize (d : ℕ) (st : CircState) : Except String CircState := do
  let T' := st.T + 1
  let ns := numSyn d
  let ent ← latticeEntangle d
  .ok { T := T',
        cregs := st.cregs ++ [2 * ns],
        ops := st.ops ++ ent
          ++ (List.range ns).map (fun i => Op.measure (QRef.mz i) T' i)
          ++ (List.range ns).map (fun i => Op.measure (QRef.mx i) T' (ns + i))
          ++ (List.range ns).map (fun i => Op.reset (QRef.mz i))
          ++ (List.range ns).map (fun i => Op.reset (QRef.mx i))
          ++ [Op.barrier] }

/-- Python `int(x, base=2)` on a binary string, most-significant character first. -/
def binToNat (s : List Bool) : ℕ := s.foldl (fun acc b => 2 * acc + b.toNat) 0

/-- Python list indexing `l[i]` for the in-range accesses performed by the
decoders (out-of-range access, which would raise in Python, is totalized to 0;
every claim below is settled on in-range data). -/
def pyGet (l : List ℕ) (i : ℤ) : ℕ := l.getD i.toNat 0

/-- The summand `readout_values[idx] if idx != None else 0` of the stabilizer
parity in `extract_final_stabilizer_and_logical_readout_x/z`. -/
def nbrVal (rv : List ℕ) : Option ℤ → ℕ
  | none => 0
  | some idx => pyGet rv idx

/-- Source: `sum([readout_values[idx] if idx != None else 0 for idx in idx_list[1:]]) % 2`. -/
def plaqParity (rv : List ℕ) (p : Plaq) : ℕ :=
  (nbrVal rv p.top_l + nbrVal rv p.top_r + nbrVal rv p.bot_l + nbrVal rv p.bot_r) % 2

/-- Source: `readout_values = [int(q) for q in final_readout_string][::-1]`. -/
def readoutValues (final_readout_string : List Bool) : List ℕ :=
  (final_readout_string.map Bool.toNat).reverse

/-- Source: `_XXZZLattice.extract_final_stabilizer_and_logical_readout_x`.
The stabilizer character string `"X_N...X_0"` is built by prepending
`str(stabilizer_val)` for each plaquette in order (hence a `foldl` with cons);
`range(0, num_data, d)` enumerates `i*d` for `i < d` (d ≥ 1). -/
def extractX (d : ℕ) (final_readout_string previous_syndrome_string : List Bool) :
    ℕ × List Bool :=
  let rv := readoutValues final_readout_string
  let x_stabilizer : List Bool :=
    (geometryMx d).foldl (fun acc p => (plaqParity rv p == 1) :: acc) []
  let stabilizer_str := x_stabilizer ++ previous_syndrome_string.drop (numSyn d)
  let logical_readout :=
    (List.range d).foldl (fun acc i => (acc + pyGet rv ((i * d : ℕ) : ℤ)) % 2) 0
  (logical_readout, stabilizer_str)

/-- Source: `_XXZZLattice.extract_final_stabilizer_and_logical_readout_z`.
The fresh Z half is appended after the X half copied from
`previous_syndrome_string[:num_syn]`; the logical bit sums the first `d`
positions. -/
def extractZ (d : ℕ) (final_readout_string previous_syndrome_string : List Bool) :
    ℕ × List Bool :=
  let rv := readoutValues final_readout_string
  let z_stabilizer : List Bool :=
    (geometryMz d).foldl (fun acc p => (plaqParity rv p == 1) :: acc) []
  let stabilizer_str := previous_syndrome_string.take (numSyn d) ++ z_stabilizer
  let logical_readout :=
    (List.range d).foldl (fun acc i => (acc + pyGet rv ((i : ℕ) : ℤ)) % 2) 0
  (logical_readout, stabilizer_str)

/-- The `readout_type` selector ("X" / "Z"). -/
inductive RType | X | Z
deriving DecidableEq, Repr

/-- Source: the `_XXZZLattice.extract_final_stabilizer_and_logical_readout` wrapper. -/
def extractFinal (d : ℕ) (rt : RType) (final prev : List Bool) : ℕ × List Bool :=
  match rt with
  | .X => extractX d final prev
  | .Z => extractZ d final prev

/-- Source: `X.append((float(T), -0.5 + loc, 0.5 + loc % 2))` -- the X-defect coordinate. -/
def xDefectCoord (T loc : ℕ) : TQubitCoord :=
  ((T : ℚ), -(1/2) + (loc : ℚ), 1/2 + ((loc % 2 : ℕ) : ℚ))

/-- Source: `Z.append((float(T), 0.5 + loc // 2, 0.5 + loc % 2 * 2 - loc // 2))` --
the Z-defect coordinate (Python precedence: `0.5 + ((loc % 2) * 2) - (loc // 2)`). -/
def zDefectCoord (T loc : ℕ) : TQubitCoord :=
  ((T : ℚ), 1/2 + ((loc / 2 : ℕ) : ℚ), 1/2 + ((loc % 2 : ℕ) : ℚ) * 2 - ((loc / 2 : ℕ) : ℚ))

/-- The defect-coordinate loops at the end of `parse_readout`, applied to the
round strings that remain after the logical readout has been split off
(`chunks` there holds one `2*num_syn`-bit string per round, oldest first).
`enum` supplies `T`, and `syndrome & 1 << loc` selects the set bits. -/
def parseDefects (num_syn : ℕ) (chunks : List (List Bool)) :
    List TQubitCoord × List TQubitCoord :=
  let int_syndromes := (chunks.reverse).map binToNat
  let xor_syndromes := List.zipWith (fun a b => a ^^^ b) int_syndromes int_syndromes.tail
  let mask_Z := binToNat (List.replicate num_syn true)
  let mask_X := binToNat (List.replicate num_syn true ++ List.replicate num_syn false)
  let X_syndromes := xor_syndromes.map (fun x => (x &&& mask_X) >>> num_syn)
  let Z_syndromes := xor_syndromes.map (fun x => x &&& mask_Z)
  let X := X_syndromes.enum.flatMap (fun Ts =>
    ((List.range num_syn).filter (fun loc => Ts.2 &&& (1 <<< loc) != 0)).map
      (xDefectCoord Ts.1))
  let Z := Z_syndromes.enum.flatMap (fun Ts =>
    ((List.range num_syn).filter (fun loc => Ts.2 &&& (1 <<< loc) != 0)).map
      (zDefectCoord Ts.1))
  (X, Z)

/-- Source: `_XXZZLattice.parse_readout`.  The space-separated transcript is taken
already split into `chunks` (each chunk one binary token, as a `List Bool`).
Failures Python would raise (empty transcript, missing `readout_type` on a
full-lattice readout — the `assert` —, `int("")`) are `none`. -/
def parseReadout (d : ℕ) (chunks : List (List Bool)) (readout_type : Option RType) :
    Option (ℕ × (List TQubitCoord × List TQubitCoord)) :=
  match chunks with
  | [] => none
  | c0 :: rest =>
    if c0.length > 1 then  -- all data qubits were read out
      match readout_type, rest with
      | some rt, prev :: _ =>
        let (logical_readout, final_stabilizer) := extractFinal d rt c0 prev
        some (logical_readout, parseDefects (numSyn d) (final_stabilizer :: rest))
      | _, _ => none
    else
      match c0 with
      | [b] => some (b.toNat, parseDefects (numSyn d) rest)
      | _ => none

/-- Source: `_XXZZLattice.__init__` parameter validation and derived sizes, over
Python integers: `d % 2` is `Int.emod` (equal to Python `%` for the positive
modulus 2) and `(d**2 - 1)//2` is floor division (its operands are
non-negative for every integer `d`).  Returns `(num_data, num_syn)`. -/
def latticeInit (params_d : Option ℤ) : Except String (ℤ × ℤ) :=
  match params_d with
  | none => .error "Please include a d param."
  | some d =>
    if d % 2 ≠ 1 then .error "Surface code distance must be odd!"
    else .ok (d ^ 2, (d ^ 2 - 1) / 2)

/-- The gate pair the X protocol emits for a present neighbor pair:
entangle syndrome with the right member, then with the left member. -/
def pairCxFrom (s : QRef) : Option QRef → Option QRef → List Op
  | some r, some l => [Op.cx s r, Op.cx s l]
  | _, _ => []

/-- The gate pair the Z protocol emits for a present neighbor pair:
entangle the top member into the syndrome, then the bottom member. -/
def pairCxInto (s : QRef) : Option QRef → Option QRef → List Op
  | some t, some b => [Op.cx t s, Op.cx b s]
  | _, _ => []

/-- The claim's description of the defect computation of `parse_readout`, for
refinement comparison with `parseDefects`: reverse the round order, read each
round string as a binary integer, XOR every temporally adjacent pair, mask
each XOR into its low half (Z family) and high half (X family), and emit, for
every set bit at transition `T` and plaquette index `loc`, the X/Z defect
coordinate. -/
def specDefects (num_syn : ℕ) (rounds : List (List Bool)) :
    List TQubitCoord × List TQubitCoord :=
  let ints := (rounds.reverse).map binToNat
  let defects := List.zipWith (fun a b => a ^^^ b) ints ints.tail
  let highs := defects.map (fun x => x / 2 ^ num_syn % 2 ^ num_syn)
  let lows := defects.map (fun x => x % 2 ^ num_syn)
  (highs.enum.flatMap (fun Ts =>
      ((List.range num_syn).filter (fun loc => Ts.2.testBit loc)).map (xDefectCoord Ts.1)),
   lows.enum.flatMap (fun Ts =>
      ((List.range num_syn).filter (fun loc => Ts.2.testBit loc)).map (zDefectCoord Ts.1)))

/-- The claim's description of the X logical readout: the mod-2 sum of the
reversed readout string's values at indices `0, d, 2d, …` (left-most column). -/
def specLogicalX (d : ℕ) (final : List Bool) : ℕ :=
  (∑ i ∈ Finset.range d, pyGet (readoutValues final) ((i * d : ℕ) : ℤ)) % 2

/-- The claim's description of the Z logical readout: the mod-2 sum of the
reversed readout string's values at indices `0 … d-1` (top-most row). -/
def specLogicalZ (d : ℕ) (final : List Bool) : ℕ :=
  (∑ i ∈ Finset.range d, pyGet (readoutValues final) ((i : ℕ) : ℤ)) % 2

/-- The claim's description of the freshly computed X half of the stabilizer
string: one bit per `mx` plaquette — the mod-2 sum of its present neighbors'
readout values — in reversed (`X_N … X_0`) order. -/
def specXHalf (d : ℕ) (final : List Bool) : List Bool :=
  ((geometryMx d).map (fun p => plaqParity (readoutValues final) p == 1)).reverse

/-- The claim's description of the freshly computed Z half. -/
def specZHalf (d : ℕ) (final : List Bool) : List Bool :=
  ((geometryMz d).map (fun p => plaqParity (readoutValues final) p == 1)).reverse

/-- The operation sequence `_XXXX.entangle` emits for one (consistent)
plaquette of the `mx` family. -/
def xProtocolOps (p : Plaq) : List Op :=
  [Op.h (QRef.mx p.syn)]
    ++ pairCxFrom (QRef.mx p.syn) (p.top_r.map QRef.data) (p.top_l.map QRef.data)
    ++ pairCxFrom (QRef.mx p.syn) (p.bot_r.map QRef.data) (p.bot_l.map QRef.data)
    ++ [Op.h (QRef.mx p.syn)]

/-- The operation sequence `_ZZZZ.entangle` emits for one (consistent)
plaquette of the `mz` family. -/
def zProtocolOps (p : Plaq) : List Op :=
  pairCxInto (QRef.mz p.syn) (p.top_r.map QRef.data) (p.bot_r.map QRef.data)
    ++ pairCxInto (QRef.mz p.syn) (p.top_l.map QRef.data) (p.bot_l.map QRef.data)

example : geometryMx 3 =
    [⟨0, none, none, some 0, some 1⟩,
     ⟨1, some 1, some 2, some 4, some 5⟩,
     ⟨2, some 3, some 4, some 6, some 7⟩,
     ⟨3, some 7, some 8, none, none⟩] := by decide

example : geometryMz 3 =
    [⟨0, some 0, some 1, some 3, some 4⟩,
     ⟨1, some 2, none, some 5, none⟩,
     ⟨2, none, some 3, none, some 6⟩,
     ⟨3, some 4, some 5, some 7, some 8⟩] := by decide

example : extractX 3 (List.replicate 9 true) (List.replicate 8 false) =
    (1, List.replicate 8 false) := by decide

example : latticeInit (some (-3)) = .ok (9, 4) := rfl

example : parseReadout 3 [[true], [true,false,true,false,false,false,false,false],
    [true,false,false,true,false,false,false,false]] none =
    some (1, ([xDefectCoord 0 0, xDefectCoord 0 1], [])) := rfl

lemma xxxxEntangle_ok (s : QRef) (tl tr bl br : Option QRef)
    (h1 : tr.isSome ↔ tl.isSome) (h2 : br.isSome ↔ bl.isSome) :
    xxxxEntangle s tl tr bl br =
      .ok ([Op.h s] ++ pairCxFrom s tr tl ++ pairCxFrom s br bl ++ [Op.h s]) := by
  rcases tr with _ | tr <;> rcases tl with _ | tl <;>
    rcases br with _ | br <;> rcases bl with _ | bl <;>
    simp_all [xxxxEntangle, pairCxFrom]

lemma zzzzEntangle_ok (s : QRef) (tl tr bl br : Option QRef)
    (h1 : tr.isSome ↔ br.isSome) (h2 : tl.isSome ↔ bl.isSome) :
    zzzzEntangle s tl tr bl br = .ok (pairCxInto s tr br ++ pairCxInto s tl bl) := by
  rcases tr with _ | tr <;> rcases tl with _ | tl <;>
    rcases br with _ | br <;> rcases bl with _ | bl <;>
    simp_all [zzzzEntangle, pairCxInto]

/-- C5: for every valid 5-tuple, the X-type protocol emits exactly H, the
top pair's gates (syndrome→top_right then syndrome→top_left) when the top
pair is present, the bottom pair's gates likewise, and a closing H; the
Z-type protocol emits no basis change and exactly the right pair's gates
(top_right→syndrome then bottom_right→syndrome) when the right pair is
present, then the left pair's gates likewise. -/
theorem entangle_protocol_sequences (s : QRef) (tl tr bl br : Option QRef) :
    ((tr.isSome ↔ tl.isSome) → (br.isSome ↔ bl.isSome) →
      xxxxEntangle s tl tr bl br =
        .ok ([Op.h s] ++ pairCxFrom s tr tl ++ pairCxFrom s br bl ++ [Op.h s])) ∧
    ((tr.isSome ↔ br.isSome) → (tl.isSome ↔ bl.isSome) →
      zzzzEntangle s tl tr bl br =
        .ok (pairCxInto s tr br ++ pairCxInto s tl bl)) :=
  ⟨fun h1 h2 => xxxxEntangle_ok s tl tr bl br h1 h2,
   fun h1 h2 => zzzzEntangle_ok s tl tr bl br h1 h2⟩

/-- Witness for C5 at a concrete valid 5-tuple of each family. -/
theorem entangle_protocol_sequences_witness :
    xxxxEntangle QRef.ancilla (some (QRef.data 0)) (some (QRef.data 1)) none none =
      .ok [Op.h QRef.ancilla, Op.cx QRef.ancilla (QRef.data 1),
           Op.cx QRef.ancilla (QRef.data 0), Op.h QRef.ancilla] ∧
    zzzzEntangle QRef.ancilla (some (QRef.data 0)) (some (QRef.data 1))
        (some (QRef.data 3)) (some (QRef.data 4)) =
      .ok [Op.cx (QRef.data 1) QRef.ancilla, Op.cx (QRef.data 4) QRef.ancilla,
           Op.cx (QRef.data 0) QRef.ancilla, Op.cx (QRef.data 3) QRef.ancilla] := by
  constructor
  · have h := (entangle_protocol_sequences QRef.ancilla (some (QRef.data 0))
      (some (QRef.data 1)) none none).1 (by simp) (by simp)
    simpa [pairCxFrom] using h
  · have h := (entangle_protocol_sequences QRef.ancilla (some (QRef.data 0))
      (some (QRef.data 1)) (some (QRef.data 3)) (some (QRef.data 4))).2
      (by simp) (by simp)
    simpa [pairCxInto] using h

/-- C6: every `mx` record pairs its top neighbors (and its bottom neighbors)
present-or-absent together; every `mz` record pairs its right neighbors (and
its left neighbors) present-or-absent together. -/
theorem geometry_pair_symmetry (d : ℕ) (_hodd : d % 2 = 1) :
    (∀ p ∈ geometryMx d,
      (p.top_r = none ↔ p.top_l = none) ∧ (p.bot_r = none ↔ p.bot_l = none)) ∧
    (∀ p ∈ geometryMz d,
      (p.top_r = none ↔ p.bot_r = none) ∧ (p.top_l = none ↔ p.bot_l = none)) := by
  refine ⟨fun p hp => ?_, fun p hp => ?_⟩
  · simp only [geometryMx, List.mem_map] at hp
    obtain ⟨syn, -, rfl⟩ := hp
    dsimp only [mxPlaq]
    split_ifs <;> simp
  · simp only [geometryMz, List.mem_map] at hp
    obtain ⟨syn, -, rfl⟩ := hp
    dsimp only [mzPlaq]
    split_ifs <;> simp

/-- Witness for C6 at `d = 3`. -/
theorem geometry_pair_symmetry_witness :
    (((mxPlaq 3 0).top_r = none ↔ (mxPlaq 3 0).top_l = none) ∧
      ((mxPlaq 3 0).bot_r = none ↔ (mxPlaq 3 0).bot_l = none)) ∧
    (((mzPlaq 3 1).top_r = none ↔ (mzPlaq 3 1).bot_r = none) ∧
      ((mzPlaq 3 1).top_l = none ↔ (mzPlaq 3 1).bot_l = none)) :=
  ⟨(geometry_pair_symmetry 3 (by decide)).1 (mxPlaq 3 0) (by decide),
   (geometry_pair_symmetry 3 (by decide)).2 (mzPlaq 3 1) (by decide)⟩

/-- C7 (amended): `entangle` raises the geometry `LatticeError` — emitting no
operation — exactly when `top_right` is present without `top_left`, or
`bottom_right` without `bottom_left` (X-type), resp. when `top_right` is
present without `bottom_right`, or `top_left` without `bottom_left` (Z-type);
the opposite-direction violations of the presence-symmetry constraint are
silently skipped. -/
theorem entangle_error_characterization (s : QRef) (tl tr bl br : Option QRef) :
    (xxxxEntangle s tl tr bl br = .error "Inconsistent X syndrome connections" ↔
      ((tr.isSome ∧ tl = none) ∨ (br.isSome ∧ bl = none))) ∧
    (zzzzEntangle s tl tr bl br = .error "Inconsistent Z syndrome connections" ↔
      ((tr.isSome ∧ br = none) ∨ (tl.isSome ∧ bl = none))) := by
  constructor
  · rcases tr with _ | tr <;> rcases tl with _ | tl <;>
      rcases br with _ | br <;> rcases bl with _ | bl <;>
      simp [xxxxEntangle]
  · rcases tr with _ | tr <;> rcases tl with _ | tl <;>
      rcases br with _ | br <;> rcases bl with _ | bl <;>
      simp [zzzzEntangle]

/-- Counterexample to C7 as stated: the 5-tuple with `top_left` present and
`top_right` absent violates the X-family presence-symmetry constraint
(`top_right` present iff `top_left` present), yet `_XXXX.entangle` raises
nothing and happily emits its two basis changes. -/
theorem entangle_error_counterexample :
    ¬ ((some (QRef.data 0) : Option QRef).isSome ↔ (none : Option QRef).isSome) ∧
    xxxxEntangle QRef.ancilla (some (QRef.data 0)) none none none =
      .ok [Op.h QRef.ancilla, Op.h QRef.ancilla] :=
  ⟨by simp, rfl⟩

/-- C10: lattice construction fails iff the `d` param is missing or even under
Python modulo; any odd integer is accepted, including negative ones such as
`d = -3` (for which `-3 % 2 == 1`), with `num_data = d²`, `num_syn = (d²-1)//2`. -/
theorem lattice_init_validation :
    latticeInit none = .error "Please include a d param." ∧
    (∀ d : ℤ, d % 2 ≠ 1 → latticeInit (some d) = .error "Surface code distance must be odd!") ∧
    (∀ d : ℤ, d % 2 = 1 → latticeInit (some d) = .ok (d ^ 2, (d ^ 2 - 1) / 2)) ∧
    latticeInit (some (-3)) = .ok (9, 4) := by
  refine ⟨rfl, fun d hd => ?_, fun d hd => ?_, rfl⟩
  · simp [latticeInit, hd]
  · simp [latticeInit, hd]

/-- Witness for C10 at `d = 4` (rejected) and `d = -3` (accepted). -/
theorem lattice_init_validation_witness :
    latticeInit (some 4) = .error "Surface code distance must be odd!" ∧
    latticeInit (some (-3)) = .ok ((-3 : ℤ) ^ 2, ((-3 : ℤ) ^ 2 - 1) / 2) :=
  ⟨lattice_init_validation.2.1 4 (by decide),
   lattice_init_validation.2.2.1 (-3) (by decide)⟩

lemma binToNat_foldl (l : List Bool) (a : ℕ) :
    l.foldl (fun acc b => 2 * acc + b.toNat) a = a * 2 ^ l.length + binToNat l := by
  induction l generalizing a with
  | nil => simp [binToNat]
  | cons x xs ih =>
    simp only [List.foldl_cons, List.length_cons, binToNat]
    rw [ih, ih (2 * 0 + x.toNat)]
    ring

lemma binToNat_append (l₁ l₂ : List Bool) :
    binToNat (l₁ ++ l₂) = binToNat l₁ * 2 ^ l₂.length + binToNat l₂ := by
  simp only [binToNat, List.foldl_append]
  exact binToNat_foldl l₂ _

lemma binToNat_replicate_true (n : ℕ) :
    binToNat (List.replicate n true) = 2 ^ n - 1 := by
  induction n with
  | zero => rfl
  | succ m ih =>
    rw [List.replicate_succ]
    have h : binToNat (true :: List.replicate m true) =
        1 * 2 ^ m + binToNat (List.replicate m true) := by
      simp only [binToNat, List.foldl_cons]
      simpa using binToNat_foldl (List.replicate m true) 1
    rw [h, ih, pow_succ]
    have h2 : 1 ≤ 2 ^ m := Nat.one_le_two_pow
    omega

lemma binToNat_replicate_false (n : ℕ) :
    binToNat (List.replicate n false) = 0 := by
  induction n with
  | zero => rfl
  | succ m ih =>
    rw [List.replicate_succ]
    simpa [binToNat] using ih

lemma binToNat_mask_high (n : ℕ) :
    binToNat (List.replicate n true ++ List.replicate n false) = (2 ^ n - 1) * 2 ^ n := by
  rw [binToNat_append, binToNat_replicate_true, binToNat_replicate_false,
    List.length_replicate]
  omega

lemma and_mask_high (x n : ℕ) :
    (x &&& (2 ^ n - 1) * 2 ^ n) >>> n = x / 2 ^ n % 2 ^ n := by
  apply Nat.eq_of_testBit_eq
  intro i
  rw [← Nat.shiftLeft_eq (2 ^ n - 1) n, ← Nat.shiftRight_eq_div_pow]
  simp [Nat.testBit_shiftRight, Nat.testBit_and, Nat.testBit_shiftLeft,
    Nat.testBit_mod_two_pow, Nat.testBit_two_pow_sub_one]
  exact Bool.and_comm _ _

lemma bandSelect (x i : ℕ) : (x &&& (1 <<< i) != 0) = x.testBit i := by
  rw [Nat.one_shiftLeft, Nat.and_two_pow]
  cases h : x.testBit i <;> simp [h, Nat.pow_eq_zero]

lemma parseDefects_eq_specDefects (n : ℕ) (chunks : List (List Bool)) :
    parseDefects n chunks = specDefects n chunks := by
  unfold parseDefects specDefects
  simp only [binToNat_replicate_true, binToNat_mask_high, and_mask_high,
    Nat.and_pow_two_sub_one_eq_mod, bandSelect]

/-- C1: on a transcript whose first space-separated token is a single bit,
`parse_readout` returns that bit as the logical readout, and the defect lists
are exactly those described by the claim (round order reversed, adjacent
rounds XOR-ed as binary integers, low half = Z family, high half = X family,
each set bit at `(T, loc)` mapped to its family's coordinate formula). -/
theorem parse_readout_single_bit (d : ℕ) (b : Bool) (rounds : List (List Bool))
    (rt : Option RType) :
    parseReadout d ([b] :: rounds) rt = some (b.toNat, specDefects (numSyn d) rounds) := by
  unfold parseReadout
  simp [parseDefects_eq_specDefects]

lemma foldl_cons_rev {α β : Type} (f : α → β) (l : List α) (acc : List β) :
    l.foldl (fun a x => f x :: a) acc = (l.map f).reverse ++ acc := by
  induction l generalizing acc with
  | nil => simp
  | cons x xs ih => simp [ih]

lemma foldl_add_mod_two (f : ℕ → ℕ) (l : List ℕ) (a : ℕ) :
    l.foldl (fun acc i => (acc + f i) % 2) (a % 2) = (a + (l.map f).sum) % 2 := by
  induction l generalizing a with
  | nil => simp
  | cons x xs ih =>
    simp only [List.foldl_cons, List.map_cons, List.sum_cons]
    rw [Nat.mod_add_mod, ih (a + f x), Nat.add_assoc]

lemma foldl_add_mod_two_zero (f : ℕ → ℕ) (l : List ℕ) :
    l.foldl (fun acc i => (acc + f i) % 2) 0 = (l.map f).sum % 2 := by
  simpa using foldl_add_mod_two f l 0

lemma sum_map_range_eq (f : ℕ → ℕ) (n : ℕ) :
    ((List.range n).map f).sum = ∑ i ∈ Finset.range n, f i := by
  induction n with
  | zero => simp
  | succ m ih => rw [List.range_succ, Finset.sum_range_succ]; simp [ih]

/-- C4: the final-readout extractor with `readout_type` X (resp. Z) returns the
left-most-column (resp. top-most-row) mod-2 logical bit of the reversed readout
string, and the stabilizer string made of the freshly computed X (resp. Z) half
spliced with the other half copied unchanged from `previous_syndrome_string`;
in particular for `d = 3`, all-ones readout, all-zero previous syndrome and
readout_type X, it returns logical bit 1 and stabilizer string `"00000000"`. -/
theorem extract_final_characterization :
    (∀ (d : ℕ) (final prev : List Bool),
      extractFinal d .X final prev =
        (specLogicalX d final, specXHalf d final ++ prev.drop (numSyn d))) ∧
    (∀ (d : ℕ) (final prev : List Bool),
      extractFinal d .Z final prev =
        (specLogicalZ d final, prev.take (numSyn d) ++ specZHalf d final)) ∧
    extractFinal 3 .X (List.replicate 9 true) (List.replicate 8 false) =
      (1, List.replicate 8 false) := by
  refine ⟨fun d final prev => ?_, fun d final prev => ?_, by decide⟩
  · unfold extractFinal extractX specLogicalX specXHalf
    simp [foldl_cons_rev, foldl_add_mod_two_zero, sum_map_range_eq]
  · unfold extractFinal extractZ specLogicalZ specZHalf
    simp [foldl_cons_rev, foldl_add_mod_two_zero, sum_map_range_eq]

lemma mxPlaq_pairs (d syn : ℕ) :
    ((mxPlaq d syn).top_r.isSome ↔ (mxPlaq d syn).top_l.isSome) ∧
    ((mxPlaq d syn).bot_r.isSome ↔ (mxPlaq d syn).bot_l.isSome) := by
  dsimp only [mxPlaq]
  split_ifs <;> simp

lemma mzPlaq_pairs (d syn : ℕ) :
    ((mzPlaq d syn).top_r.isSome ↔ (mzPlaq d syn).bot_r.isSome) ∧
    ((mzPlaq d syn).top_l.isSome ↔ (mzPlaq d syn).bot_l.isSome) := by
  dsimp only [mzPlaq]
  split_ifs <;> simp

lemma plaqOpsX_ok (d syn : ℕ) :
    plaqOpsX (mxPlaq d syn) = .ok (xProtocolOps (mxPlaq d syn)) := by
  unfold plaqOpsX xProtocolOps
  exact xxxxEntangle_ok _ _ _ _ _
    (by simpa using (mxPlaq_pairs d syn).1) (by simpa using (mxPlaq_pairs d syn).2)

lemma plaqOpsZ_ok (d syn : ℕ) :
    plaqOpsZ (mzPlaq d syn) = .ok (zProtocolOps (mzPlaq d syn)) := by
  unfold plaqOpsZ zProtocolOps
  exact zzzzEntangle_ok _ _ _ _ _
    (by simpa using (mzPlaq_pairs d syn).1) (by simpa using (mzPlaq_pairs d syn).2)

lemma collectOps_map_ok {α : Type} (f : α → Except String (List Op)) (g : α → List Op)
    (l : List α) :
    (∀ a ∈ l, f a = .ok (g a)) → collectOps (l.map f) = .ok (l.flatMap g) := by
  induction l with
  | nil => intro _; rfl
  | cons x xs ih =>
    intro h
    have hx := h x (List.mem_cons_self x xs)
    have hxs := ih (fun a ha => h a (List.mem_cons_of_mem x ha))
    simp only [List.map_cons, List.flatMap_cons, collectOps, hx, hxs]
    rfl

lemma collectOps_append_ok {l₁ l₂ : List (Except String (List Op))} {o₁ o₂ : List Op}
    (h₁ : collectOps l₁ = .ok o₁) (h₂ : collectOps l₂ = .ok o₂) :
    collectOps (l₁ ++ l₂) = .ok (o₁ ++ o₂) := by
  induction l₁ generalizing o₁ with
  | nil =>
    injection h₁ with h
    subst h
    simpa using h₂
  | cons x xs ih =>
    cases x with
    | error e => exact Except.noConfusion h₁
    | ok a =>
      cases hxs : collectOps xs with
      | error e =>
        rw [collectOps, hxs] at h₁
        exact Except.noConfusion h₁
      | ok b =>
        rw [collectOps, hxs] at h₁
        have h' : (Except.ok (a ++ b) : Except String (List Op)) = .ok o₁ := h₁
        injection h' with h
        subst h
        have goal' : collectOps ((Except.ok a : Except String (List Op)) :: (xs ++ l₂)) =
            .ok (a ++ (b ++ o₂)) := by
          show (do
            let x ← (Except.ok a : Except String (List Op))
            let xs' ← collectOps (xs ++ l₂)
            Except.ok (x ++ xs')) = _
          rw [ih hxs]
          rfl
        rw [List.cons_append, List.append_assoc]
        exact goal'

/-- For every distance, the full-lattice entangle succeeds and emits all `mx`
protocols followed by all `mz` protocols, in `syn` order. -/
lemma latticeEntangle_ok (d : ℕ) :
    latticeEntangle d =
      .ok ((geometryMx d).flatMap xProtocolOps ++ (geometryMz d).flatMap zProtocolOps) := by
  unfold latticeEntangle
  refine collectOps_append_ok (collectOps_map_ok _ _ _ ?_) (collectOps_map_ok _ _ _ ?_)
  · intro p hp
    obtain ⟨syn, -, rfl⟩ := List.mem_map.1 hp
    exact plaqOpsX_ok d syn
  · intro p hp
    obtain ⟨syn, -, rfl⟩ := List.mem_map.1 hp
    exact plaqOpsZ_ok d syn

/-- C3: each `stabilize()` call increments the round counter by exactly one,
allocates one fresh classical register of size `2*num_syn`, appends every
plaquette's entangling protocol across both families, measures the Z-syndrome
family into bits `0..num_syn-1` and the X-syndrome family into bits
`num_syn..2*num_syn-1` of that register, and resets both syndrome families. -/
theorem stabilize_characterization (d : ℕ) (st : CircState) (_hodd : d % 2 = 1) :
    stabilize d st = .ok
      { T := st.T + 1,
        cregs := st.cregs ++ [2 * numSyn d],
        ops := st.ops
          ++ ((geometryMx d).flatMap xProtocolOps ++ (geometryMz d).flatMap zProtocolOps)
          ++ (List.range (numSyn d)).map (fun i => Op.measure (QRef.mz i) (st.T + 1) i)
          ++ (List.range (numSyn d)).map (fun i => Op.measure (QRef.mx i) (st.T + 1) (numSyn d + i))
          ++ (List.range (numSyn d)).map (fun i => Op.reset (QRef.mz i))
          ++ (List.range (numSyn d)).map (fun i => Op.reset (QRef.mx i))
          ++ [Op.barrier] } := by
  unfold stabilize
  rw [latticeEntangle_ok]
  rfl

lemma per_row_x_eq (k : ℕ) : (2 * k + 1 - 1) / 2 = k := by omega

lemma per_row_z_eq (k : ℕ) : (2 * k + 1 + 1) / 2 = k + 1 := by omega

lemma numSyn_eq (k : ℕ) : numSyn (2 * k + 1) = 2 * k * (k + 1) := by
  unfold numSyn
  have h : (2 * k + 1) ^ 2 = 2 * (2 * k * (k + 1)) + 1 := by ring
  omega

/-- First-row `mx` plaquettes: both tops absent, bottoms `2syn, 2syn+1`. -/
lemma mxPlaq_row0 (k syn : ℕ) (hs : syn < k) :
    mxPlaq (2 * k + 1) syn =
      { syn := syn, top_l := none, top_r := none,
        bot_l := some ((syn : ℤ) * 2), bot_r := some ((syn : ℤ) * 2 + 1) } := by
  have hrow : syn / k = 0 := Nat.div_eq_of_lt hs
  dsimp only [mxPlaq]
  simp only [per_row_x_eq, hrow]
  simp

/-- Last-row `mx` plaquettes: both bottoms absent, tops `2syn+1, 2syn+2`. -/
lemma mxPlaq_rowLast (k syn : ℕ) (_hk : 1 ≤ k) (h1 : k * (2 * k + 1) ≤ syn)
    (h2 : syn < 2 * k * (k + 1)) :
    mxPlaq (2 * k + 1) syn =
      { syn := syn, top_l := some ((syn : ℤ) * 2 + 1), top_r := some ((syn : ℤ) * 2 + 2),
        bot_l := none, bot_r := none } := by
  have hrow : syn / k = 2 * k + 1 := by
    apply Nat.div_eq_of_lt_le
    · rw [Nat.mul_comm]; exact h1
    · have h : (2 * k + 1 + 1) * k = 2 * k * (k + 1) := by ring
      rw [h]; exact h2
  dsimp only [mxPlaq]
  simp only [per_row_x_eq, hrow]
  simp

/-- Interior-row `mx` plaquettes: all four neighbors present, with the
row/offset/parity index formulas of the source. -/
lemma mxPlaq_mid (k syn : ℕ) (hk : 1 ≤ k) (h1 : k ≤ syn) (h2 : syn < k * (2 * k + 1)) :
    ∃ row off : ℕ, syn = k * row + off ∧ off < k ∧ 1 ≤ row ∧ row ≤ 2 * k ∧
      mxPlaq (2 * k + 1) syn =
        { syn := syn,
          top_l := some (((row : ℤ) - 1) * ((2 * k + 1 : ℕ) : ℤ) + (off : ℤ) * 2 + (row : ℤ) % 2),
          top_r := some (((row : ℤ) - 1) * ((2 * k + 1 : ℕ) : ℤ) + (off : ℤ) * 2 + (row : ℤ) % 2 + 1),
          bot_l := some (((row : ℤ) - 1) * ((2 * k + 1 : ℕ) : ℤ) + ((2 * k + 1 : ℕ) : ℤ) + (off : ℤ) * 2 + (row : ℤ) % 2),
          bot_r := some (((row : ℤ) - 1) * ((2 * k + 1 : ℕ) : ℤ) + ((2 * k + 1 : ℕ) : ℤ) + (off : ℤ) * 2 + (row : ℤ) % 2 + 1) } := by
  have hkpos : 0 < k := by omega
  have hrow1 : 1 ≤ syn / k := (Nat.one_le_div_iff hkpos).2 h1
  have hrow2 : syn / k ≤ 2 * k := by
    have h2' : syn < (2 * k + 1) * k := by rw [Nat.mul_comm]; exact h2
    have := (Nat.div_lt_iff_lt_mul hkpos).2 h2'
    omega
  refine ⟨syn / k, syn % k, (Nat.div_add_mod syn k).symm, Nat.mod_lt _ hkpos, hrow1, hrow2, ?_⟩
  dsimp only [mxPlaq]
  simp only [per_row_x_eq]
  rw [if_neg (by omega), if_neg (by omega)]

/-- Case characterization of `mz` plaquettes: row `syn / (k+1) < 2k`
(`d-1` rows in all), offset `syn % (k+1) ≤ k`, and the three boundary cases
of the source (even-row last column right-truncated, odd-row first column
left-truncated, otherwise full). -/
lemma mzPlaq_char (k syn : ℕ) (hs : syn < 2 * k * (k + 1)) :
    ∃ row off : ℕ, syn = (k + 1) * row + off ∧ off ≤ k ∧ row < 2 * k ∧
      ((row % 2 = 0 ∧ off = k ∧
        mzPlaq (2 * k + 1) syn =
          { syn := syn,
            top_l := some ((row : ℤ) * ((2 * k + 1 : ℕ) : ℤ) + (off : ℤ) * 2 - (row : ℤ) % 2),
            top_r := none,
            bot_l := some ((row : ℤ) * ((2 * k + 1 : ℕ) : ℤ) + ((2 * k + 1 : ℕ) : ℤ) + (off : ℤ) * 2 - (row : ℤ) % 2),
            bot_r := none }) ∨
       (row % 2 = 1 ∧ off = 0 ∧
        mzPlaq (2 * k + 1) syn =
          { syn := syn,
            top_l := none,
            top_r := some ((row : ℤ) * ((2 * k + 1 : ℕ) : ℤ) + (off : ℤ) * 2 - (row : ℤ) % 2 + 1),
            bot_l := none,
            bot_r := some ((row : ℤ) * ((2 * k + 1 : ℕ) : ℤ) + ((2 * k + 1 : ℕ) : ℤ) + (off : ℤ) * 2 - (row : ℤ) % 2 + 1) }) ∨
       (¬(row % 2 = 0 ∧ off = k) ∧ ¬(row % 2 = 1 ∧ off = 0) ∧
        mzPlaq (2 * k + 1) syn =
          { syn := syn,
            top_l := some ((row : ℤ) * ((2 * k + 1 : ℕ) : ℤ) + (off : ℤ) * 2 - (row : ℤ) % 2),
            top_r := some ((row : ℤ) * ((2 * k + 1 : ℕ) : ℤ) + (off : ℤ) * 2 - (row : ℤ) % 2 + 1),
            bot_l := some ((row : ℤ) * ((2 * k + 1 : ℕ) : ℤ) + ((2 * k + 1 : ℕ) : ℤ) + (off : ℤ) * 2 - (row : ℤ) % 2),
            bot_r := some ((row : ℤ) * ((2 * k + 1 : ℕ) : ℤ) + ((2 * k + 1 : ℕ) : ℤ) + (off : ℤ) * 2 - (row : ℤ) % 2 + 1) })) := by
  have hpos : 0 < k + 1 := Nat.succ_pos k
  have hrow : syn / (k + 1) < 2 * k := by
    exact (Nat.div_lt_iff_lt_mul hpos).2 hs
  have hoff : syn % (k + 1) ≤ k := by
    have := Nat.mod_lt syn hpos
    omega
  refine ⟨syn / (k + 1), syn % (k + 1), (Nat.div_add_mod syn (k + 1)).symm, hoff, hrow, ?_⟩
  by_cases hp : syn / (k + 1) % 2 = 0
  · by_cases ho : syn % (k + 1) = k
    · refine Or.inl ⟨hp, ho, ?_⟩
      dsimp only [mzPlaq]
      simp only [per_row_z_eq]
      rw [if_pos ⟨by omega, by omega⟩]
    · refine Or.inr (Or.inr ⟨by omega, by omega, ?_⟩)
      dsimp only [mzPlaq]
      simp only [per_row_z_eq]
      rw [if_neg (by omega), if_neg (by omega)]
  · by_cases ho : syn % (k + 1) = 0
    · refine Or.inr (Or.inl ⟨by omega, ho, ?_⟩)
      dsimp only [mzPlaq]
      simp only [per_row_z_eq]
      rw [if_neg (by omega), if_pos ⟨by omega, by omega⟩]
    · refine Or.inr (Or.inr ⟨by omega, by omega, ?_⟩)
      dsimp only [mzPlaq]
      simp only [per_row_z_eq]
      rw [if_neg (by omega), if_neg (by omega)]

lemma countP_or_le {α : Type} (p q : α → Bool) (l : List α) :
    l.countP (fun a => p a || q a) ≤ l.countP p + l.countP q := by
  induction l with
  | nil => simp
  | cons x xs ih =>
    rw [List.countP_cons, List.countP_cons, List.countP_cons]
    cases hp : p x <;> cases hq : q x <;> simp [hp, hq] <;> omega

lemma countP_range_le_one (p : ℕ → Bool) (n : ℕ)
    (h : ∀ i j, i < n → j < n → p i → p j → i = j) :
    (List.range n).countP p ≤ 1 := by
  induction n with
  | zero => simp
  | succ m ih =>
    rw [List.range_succ, List.countP_append]
    by_cases hm : p m
    · have hzero : (List.range m).countP p = 0 := by
        rw [List.countP_eq_zero]
        intro i hi hpi
        rw [List.mem_range] at hi
        have : i = m := h i m (by omega) (by omega) hpi hm
        omega
      simp [hzero, List.countP_cons, hm]
    · have h1 := ih (fun i j hi hj => h i j (by omega) (by omega))
      simp only [List.countP_cons, List.countP_nil, hm]
      simpa using h1

/-- Uniqueness of quotient and remainder against a positive base. -/
lemma base_inj (D a b ca cb : ℤ) (hD : 0 < D)
    (hca : 0 ≤ ca) (hca2 : ca < D) (hcb : 0 ≤ cb) (hcb2 : cb < D)
    (h : a * D + ca = b * D + cb) : a = b ∧ ca = cb := by
  have key : (a - b) * D = cb - ca := by
    have expand : (a - b) * D = a * D - b * D := by ring
    rw [expand]
    omega
  rcases lt_trichotomy a b with hlt | heq | hgt
  · exfalso
    have h1 : a - b ≤ -1 := by omega
    have h2 : (a - b) * D ≤ (-1) * D := mul_le_mul_of_nonneg_right h1 (le_of_lt hD)
    have h3 : (-1 : ℤ) * D = -D := by ring
    omega
  · refine ⟨heq, ?_⟩
    subst heq
    have hz : (a - a) * D = 0 := by ring
    omega
  · exfalso
    have h1 : 1 ≤ a - b := by omega
    have h2 : 1 * D ≤ (a - b) * D := mul_le_mul_of_nonneg_right h1 (le_of_lt hD)
    have h3 : (1 : ℤ) * D = D := by ring
    omega

/-- Where `v` can sit among the tops of an `mx` plaquette: last-row tops
`2syn+1, 2syn+2`, or interior tops `(row-1)d + 2off + parity (+δ)`. -/
lemma mx_top_mem (k syn : ℕ) (hk : 1 ≤ k) (hs : syn < 2 * k * (k + 1)) (v : ℤ)
    (hv : inTop v (mxPlaq (2 * k + 1) syn)) :
    (k * (2 * k + 1) ≤ syn ∧ ∃ δ : ℤ, (δ = 1 ∨ δ = 2) ∧ (syn : ℤ) * 2 + δ = v) ∨
    (∃ row off : ℕ, ∃ δ : ℤ, syn = k * row + off ∧ off < k ∧ 1 ≤ row ∧ row ≤ 2 * k ∧
      (δ = 0 ∨ δ = 1) ∧
      ((row : ℤ) - 1) * (2 * (k : ℤ) + 1) + (off : ℤ) * 2 + (row : ℤ) % 2 + δ = v) := by
  rcases Nat.lt_or_ge syn k with h | h
  · rw [mxPlaq_row0 k syn h] at hv
    simp [inTop] at hv
  · rcases Nat.lt_or_ge syn (k * (2 * k + 1)) with h2 | h2
    · obtain ⟨row, off, hsyn, hoff, hr1, hr2, heq⟩ := mxPlaq_mid k syn hk h h2
      rw [heq] at hv
      simp [inTop] at hv
      right
      rcases hv with h' | h'
      · exact ⟨row, off, 0, hsyn, hoff, hr1, hr2, Or.inl rfl, by omega⟩
      · exact ⟨row, off, 1, hsyn, hoff, hr1, hr2, Or.inr rfl, by omega⟩
    · rw [mxPlaq_rowLast k syn hk h2 hs] at hv
      simp [inTop] at hv
      left
      rcases hv with h' | h'
      · exact ⟨h2, 1, Or.inl rfl, by omega⟩
      · exact ⟨h2, 2, Or.inr rfl, by omega⟩

/-- Where `v` can sit among the bottoms of an `mx` plaquette: first-row
bottoms `2syn, 2syn+1`, or interior bottoms `row*d + 2off + parity (+δ)`. -/
lemma mx_bot_mem (k syn : ℕ) (hk : 1 ≤ k) (hs : syn < 2 * k * (k + 1)) (v : ℤ)
    (hv : inBot v (mxPlaq (2 * k + 1) syn)) :
    (syn < k ∧ ∃ δ : ℤ, (δ = 0 ∨ δ = 1) ∧ (syn : ℤ) * 2 + δ = v) ∨
    (∃ row off : ℕ, ∃ δ : ℤ, syn = k * row + off ∧ off < k ∧ 1 ≤ row ∧ row ≤ 2 * k ∧
      (δ = 0 ∨ δ = 1) ∧
      (row : ℤ) * (2 * (k : ℤ) + 1) + (off : ℤ) * 2 + (row : ℤ) % 2 + δ = v) := by
  rcases Nat.lt_or_ge syn k with h | h
  · rw [mxPlaq_row0 k syn h] at hv
    simp [inBot] at hv
    left
    rcases hv with h' | h'
    · exact ⟨h, 0, Or.inl rfl, by omega⟩
    · exact ⟨h, 1, Or.inr rfl, by omega⟩
  · rcases Nat.lt_or_ge syn (k * (2 * k + 1)) with h2 | h2
    · obtain ⟨row, off, hsyn, hoff, hr1, hr2, heq⟩ := mxPlaq_mid k syn hk h h2
      rw [heq] at hv
      simp [inBot] at hv
      right
      have hbase : ((row : ℤ) - 1) * (2 * (k : ℤ) + 1) + (2 * (k : ℤ) + 1) =
          (row : ℤ) * (2 * (k : ℤ) + 1) := by ring
      rcases hv with h' | h'
      · exact ⟨row, off, 0, hsyn, hoff, hr1, hr2, Or.inl rfl, by omega⟩
      · exact ⟨row, off, 1, hsyn, hoff, hr1, hr2, Or.inr rfl, by omega⟩
    · rw [mxPlaq_rowLast k syn hk h2 hs] at hv
      simp [inBot] at hv

/-- Where `v` can sit among the tops of an `mz` plaquette:
`row*d + (2off - parity + δ)` with the remainder in `[0, 2k]`. -/
lemma mz_top_mem (k syn : ℕ) (hs : syn < 2 * k * (k + 1)) (v : ℤ)
    (hv : inTop v (mzPlaq (2 * k + 1) syn)) :
    ∃ row off : ℕ, ∃ δ : ℤ, syn = (k + 1) * row + off ∧ off ≤ k ∧ row < 2 * k ∧
      (δ = 0 ∨ δ = 1) ∧
      0 ≤ (off : ℤ) * 2 - (row : ℤ) % 2 + δ ∧
      (off : ℤ) * 2 - (row : ℤ) % 2 + δ ≤ 2 * (k : ℤ) ∧
      (row : ℤ) * (2 * (k : ℤ) + 1) + ((off : ℤ) * 2 - (row : ℤ) % 2 + δ) = v := by
  obtain ⟨row, off, hsyn, hoff, hrow, hcase⟩ := mzPlaq_char k syn hs
  rcases hcase with ⟨hp, ho, heq⟩ | ⟨hp, ho, heq⟩ | ⟨hc1, hc2, heq⟩
  · rw [heq] at hv
    simp [inTop] at hv
    exact ⟨row, off, 0, hsyn, hoff, hrow, Or.inl rfl, by omega, by omega, by omega⟩
  · rw [heq] at hv
    simp [inTop] at hv
    exact ⟨row, off, 1, hsyn, hoff, hrow, Or.inr rfl, by omega, by omega, by omega⟩
  · rw [heq] at hv
    simp [inTop] at hv
    rcases hv with h' | h'
    · exact ⟨row, off, 0, hsyn, hoff, hrow, Or.inl rfl, by omega, by omega, by omega⟩
    · exact ⟨row, off, 1, hsyn, hoff, hrow, Or.inr rfl, by omega, by omega, by omega⟩

/-- Where `v` can sit among the bottoms of an `mz` plaquette:
`(row+1)*d + (2off - parity + δ)` with the remainder in `[0, 2k]`. -/
lemma mz_bot_mem (k syn : ℕ) (hs : syn < 2 * k * (k + 1)) (v : ℤ)
    (hv : inBot v (mzPlaq (2 * k + 1) syn)) :
    ∃ row off : ℕ, ∃ δ : ℤ, syn = (k + 1) * row + off ∧ off ≤ k ∧ row < 2 * k ∧
      (δ = 0 ∨ δ = 1) ∧
      0 ≤ (off : ℤ) * 2 - (row : ℤ) % 2 + δ ∧
      (off : ℤ) * 2 - (row : ℤ) % 2 + δ ≤ 2 * (k : ℤ) ∧
      ((row : ℤ) + 1) * (2 * (k : ℤ) + 1) + ((off : ℤ) * 2 - (row : ℤ) % 2 + δ) = v := by
  obtain ⟨row, off, hsyn, hoff, hrow, hcase⟩ := mzPlaq_char k syn hs
  have hbase : ((row : ℤ) + 1) * (2 * (k : ℤ) + 1) =
      (row : ℤ) * (2 * (k : ℤ) + 1) + (2 * (k : ℤ) + 1) := by ring
  rcases hcase with ⟨hp, ho, heq⟩ | ⟨hp, ho, heq⟩ | ⟨hc1, hc2, heq⟩
  · rw [heq] at hv
    simp [inBot] at hv
    exact ⟨row, off, 0, hsyn, hoff, hrow, Or.inl rfl, by omega, by omega, by omega⟩
  · rw [heq] at hv
    simp [inBot] at hv
    exact ⟨row, off, 1, hsyn, hoff, hrow, Or.inr rfl, by omega, by omega, by omega⟩
  · rw [heq] at hv
    simp [inBot] at hv
    rcases hv with h' | h'
    · exact ⟨row, off, 0, hsyn, hoff, hrow, Or.inl rfl, by omega, by omega, by omega⟩
    · exact ⟨row, off, 1, hsyn, hoff, hrow, Or.inr rfl, by omega, by omega, by omega⟩

/-- Interior rows and offsets are recovered uniquely from a neighbor value. -/
lemma mid_syn_inj (k ri oi rj oj : ℕ) (δi δj : ℤ)
    (hoi : oi < k) (hoj : oj < k)
    (hδi : δi = 0 ∨ δi = 1) (hδj : δj = 0 ∨ δj = 1)
    (h : ((ri : ℤ) - 1) * (2 * (k : ℤ) + 1) + (oi : ℤ) * 2 + (ri : ℤ) % 2 + δi
       = ((rj : ℤ) - 1) * (2 * (k : ℤ) + 1) + (oj : ℤ) * 2 + (rj : ℤ) % 2 + δj) :
    ri = rj ∧ oi = oj := by
  have h1 := base_inj (2 * (k : ℤ) + 1) ((ri : ℤ) - 1) ((rj : ℤ) - 1)
      ((oi : ℤ) * 2 + (ri : ℤ) % 2 + δi) ((oj : ℤ) * 2 + (rj : ℤ) % 2 + δj)
      (by omega) (by omega) (by omega) (by omega) (by omega) (by omega)
  have hr : ri = rj := by omega
  subst hr
  exact ⟨rfl, by omega⟩

/-- A data index sits in the tops of at most one `mx` plaquette. -/
lemma mx_top_unique (k : ℕ) (hk : 1 ≤ k) (v : ℤ) (i j : ℕ)
    (hi : i < 2 * k * (k + 1)) (hj : j < 2 * k * (k + 1))
    (hvi : inTop v (mxPlaq (2 * k + 1) i)) (hvj : inTop v (mxPlaq (2 * k + 1) j)) :
    i = j := by
  have e1 : (k : ℤ) * (2 * (k : ℤ) + 1) = 2 * ((k : ℤ) * (k : ℤ)) + (k : ℤ) := by ring
  have e2 : (2 * (k : ℤ) - 1) * (2 * (k : ℤ) + 1) = 4 * ((k : ℤ) * (k : ℤ)) - 1 := by ring
  rcases mx_top_mem k i hk hi v hvi with
    ⟨hi1, δi, hδi, hvi'⟩ | ⟨ri, oi, δi, hsi, hoi, hri1, hri2, hδi, hvi'⟩ <;>
    rcases mx_top_mem k j hk hj v hvj with
      ⟨hj1, δj, hδj, hvj'⟩ | ⟨rj, oj, δj, hsj, hoj, hrj1, hrj2, hδj, hvj'⟩
  · omega
  · exfalso
    have hci : (k : ℤ) * (2 * (k : ℤ) + 1) ≤ (i : ℤ) := by exact_mod_cast hi1
    have hbj : ((rj : ℤ) - 1) * (2 * (k : ℤ) + 1) ≤ (2 * (k : ℤ) - 1) * (2 * (k : ℤ) + 1) :=
      mul_le_mul_of_nonneg_right (by omega) (by omega)
    omega
  · exfalso
    have hcj : (k : ℤ) * (2 * (k : ℤ) + 1) ≤ (j : ℤ) := by exact_mod_cast hj1
    have hbi : ((ri : ℤ) - 1) * (2 * (k : ℤ) + 1) ≤ (2 * (k : ℤ) - 1) * (2 * (k : ℤ) + 1) :=
      mul_le_mul_of_nonneg_right (by omega) (by omega)
    omega
  · obtain ⟨hrr, hoo⟩ := mid_syn_inj k ri oi rj oj δi δj hoi hoj hδi hδj (by omega)
    subst hrr
    omega

/-- A data index sits in the bottoms of at most one `mx` plaquette. -/
lemma mx_bot_unique (k : ℕ) (hk : 1 ≤ k) (v : ℤ) (i j : ℕ)
    (hi : i < 2 * k * (k + 1)) (hj : j < 2 * k * (k + 1))
    (hvi : inBot v (mxPlaq (2 * k + 1) i)) (hvj : inBot v (mxPlaq (2 * k + 1) j)) :
    i = j := by
  rcases mx_bot_mem k i hk hi v hvi with
    ⟨hi1, δi, hδi, hvi'⟩ | ⟨ri, oi, δi, hsi, hoi, hri1, hri2, hδi, hvi'⟩ <;>
    rcases mx_bot_mem k j hk hj v hvj with
      ⟨hj1, δj, hδj, hvj'⟩ | ⟨rj, oj, δj, hsj, hoj, hrj1, hrj2, hδj, hvj'⟩
  · omega
  · exfalso
    have hbj : 1 * (2 * (k : ℤ) + 1) ≤ (rj : ℤ) * (2 * (k : ℤ) + 1) :=
      mul_le_mul_of_nonneg_right (by omega) (by omega)
    omega
  · exfalso
    have hbi : 1 * (2 * (k : ℤ) + 1) ≤ (ri : ℤ) * (2 * (k : ℤ) + 1) :=
      mul_le_mul_of_nonneg_right (by omega) (by omega)
    omega
  · have hbase : ∀ r : ℕ, ((r : ℤ) - 1) * (2 * (k : ℤ) + 1) + (2 * (k : ℤ) + 1) =
        (r : ℤ) * (2 * (k : ℤ) + 1) := fun r => by ring
    obtain ⟨hrr, hoo⟩ := mid_syn_inj k ri oi rj oj δi δj hoi hoj hδi hδj
      (by rw [← hbase ri, ← hbase rj] at *; omega)
    subst hrr
    omega

/-- A data index sits in the tops of at most one `mz` plaquette. -/
lemma mz_top_unique (k : ℕ) (v : ℤ) (i j : ℕ)
    (hi : i < 2 * k * (k + 1)) (hj : j < 2 * k * (k + 1))
    (hvi : inTop v (mzPlaq (2 * k + 1) i)) (hvj : inTop v (mzPlaq (2 * k + 1) j)) :
    i = j := by
  obtain ⟨ri, oi, δi, hsi, hoi, hri, hδi, hci0, hci1, hvi'⟩ := mz_top_mem k i hi v hvi
  obtain ⟨rj, oj, δj, hsj, hoj, hrj, hδj, hcj0, hcj1, hvj'⟩ := mz_top_mem k j hj v hvj
  obtain ⟨hr, hc⟩ := base_inj (2 * (k : ℤ) + 1) (ri : ℤ) (rj : ℤ)
      ((oi : ℤ) * 2 - (ri : ℤ) % 2 + δi) ((oj : ℤ) * 2 - (rj : ℤ) % 2 + δj)
      (by omega) hci0 (by omega) hcj0 (by omega) (by omega)
  have hrr : ri = rj := by omega
  subst hrr
  have hoo : oi = oj := by omega
  omega

/-- A data index sits in the bottoms of at most one `mz` plaquette. -/
lemma mz_bot_unique (k : ℕ) (v : ℤ) (i j : ℕ)
    (hi : i < 2 * k * (k + 1)) (hj : j < 2 * k * (k + 1))
    (hvi : inBot v (mzPlaq (2 * k + 1) i)) (hvj : inBot v (mzPlaq (2 * k + 1) j)) :
    i = j := by
  obtain ⟨ri, oi, δi, hsi, hoi, hri, hδi, hci0, hci1, hvi'⟩ := mz_bot_mem k i hi v hvi
  obtain ⟨rj, oj, δj, hsj, hoj, hrj, hδj, hcj0, hcj1, hvj'⟩ := mz_bot_mem k j hj v hvj
  obtain ⟨hr, hc⟩ := base_inj (2 * (k : ℤ) + 1) ((ri : ℤ) + 1) ((rj : ℤ) + 1)
      ((oi : ℤ) * 2 - (ri : ℤ) % 2 + δi) ((oj : ℤ) * 2 - (rj : ℤ) % 2 + δj)
      (by omega) hci0 (by omega) hcj0 (by omega) (by omega)
  have hrr : ri = rj := by omega
  subst hrr
  have hoo : oi = oj := by omega
  omega

/-- C2: for every odd `d ≥ 3` the geometry has exactly `(d²-1)/2` plaquette
records in each family, and every present neighbor index lies in `[0, d²)`. -/
theorem geometry_counts_and_bounds (d : ℕ) (h3 : 3 ≤ d) (hodd : d % 2 = 1) :
    (geometryMx d).length = (d ^ 2 - 1) / 2 ∧
    (geometryMz d).length = (d ^ 2 - 1) / 2 ∧
    ∀ p ∈ geometryMx d ++ geometryMz d, ∀ v : ℤ, inPlaq v p →
      0 ≤ v ∧ v < (d : ℤ) ^ 2 := by
  obtain ⟨k, rfl⟩ : ∃ k, d = 2 * k + 1 := ⟨d / 2, by omega⟩
  have hk : 1 ≤ k := by omega
  refine ⟨by simp [geometryMx, numSyn], by simp [geometryMz, numSyn], ?_⟩
  intro p hp v hv
  have hD2 : ((2 * k + 1 : ℕ) : ℤ) ^ 2 = 4 * ((k : ℤ) * (k : ℤ)) + 4 * (k : ℤ) + 1 := by
    push_cast; ring
  have finishb : ∀ w : ℤ, 0 ≤ w → w < 4 * ((k : ℤ) * (k : ℤ)) + 4 * (k : ℤ) + 1 →
      0 ≤ w ∧ w < ((2 * k + 1 : ℕ) : ℤ) ^ 2 := fun w h1 h2 => ⟨h1, by rw [hD2]; exact h2⟩
  have hv' : inTop v p ∨ inBot v p := by
    unfold inPlaq at hv
    simpa using hv
  have e2 : (2 * (k : ℤ) - 1) * (2 * (k : ℤ) + 1) = 4 * ((k : ℤ) * (k : ℤ)) - 1 := by ring
  have e4 : 2 * (k : ℤ) * (2 * (k : ℤ) + 1) = 4 * ((k : ℤ) * (k : ℤ)) + 2 * (k : ℤ) := by ring
  rw [List.mem_append] at hp
  rcases hp with hp | hp
  · simp only [geometryMx, List.mem_map, List.mem_range, numSyn_eq] at hp
    obtain ⟨syn, hs, rfl⟩ := hp
    have hsZ : (syn : ℤ) < 2 * (k : ℤ) * ((k : ℤ) + 1) := by exact_mod_cast hs
    have e3 : 2 * (k : ℤ) * ((k : ℤ) + 1) = 2 * ((k : ℤ) * (k : ℤ)) + 2 * (k : ℤ) := by ring
    rcases hv' with hv' | hv'
    · rcases mx_top_mem k syn hk hs v hv' with
        ⟨h1, δ, hδ, hveq⟩ | ⟨row, off, δ, hsyn, hoff, hr1, hr2, hδ, hveq⟩
      · exact finishb v (by omega) (by omega)
      · have hb0 : 0 ≤ ((row : ℤ) - 1) * (2 * (k : ℤ) + 1) :=
          mul_nonneg (by omega) (by omega)
        have hb1 : ((row : ℤ) - 1) * (2 * (k : ℤ) + 1) ≤
            (2 * (k : ℤ) - 1) * (2 * (k : ℤ) + 1) :=
          mul_le_mul_of_nonneg_right (by omega) (by omega)
        exact finishb v (by omega) (by omega)
    · rcases mx_bot_mem k syn hk hs v hv' with
        ⟨h1, δ, hδ, hveq⟩ | ⟨row, off, δ, hsyn, hoff, hr1, hr2, hδ, hveq⟩
      · have h1Z : (syn : ℤ) < (k : ℤ) := by exact_mod_cast h1
        have hkk : 0 ≤ (k : ℤ) * (k : ℤ) := mul_nonneg (by omega) (by omega)
        exact finishb v (by omega) (by omega)
      · have hb0 : 0 ≤ (row : ℤ) * (2 * (k : ℤ) + 1) :=
          mul_nonneg (by omega) (by omega)
        have hb1 : (row : ℤ) * (2 * (k : ℤ) + 1) ≤ 2 * (k : ℤ) * (2 * (k : ℤ) + 1) :=
          mul_le_mul_of_nonneg_right (by omega) (by omega)
        exact finishb v (by omega) (by omega)
  · simp only [geometryMz, List.mem_map, List.mem_range, numSyn_eq] at hp
    obtain ⟨syn, hs, rfl⟩ := hp
    rcases hv' with hv' | hv'
    · obtain ⟨row, off, δ, hsyn, hoff, hrow, hδ, hc0, hc1, hveq⟩ := mz_top_mem k syn hs v hv'
      have hb0 : 0 ≤ (row : ℤ) * (2 * (k : ℤ) + 1) := mul_nonneg (by omega) (by omega)
      have hb1 : (row : ℤ) * (2 * (k : ℤ) + 1) ≤ (2 * (k : ℤ) - 1) * (2 * (k : ℤ) + 1) :=
        mul_le_mul_of_nonneg_right (by omega) (by omega)
      exact finishb v (by omega) (by omega)
    · obtain ⟨row, off, δ, hsyn, hoff, hrow, hδ, hc0, hc1, hveq⟩ := mz_bot_mem k syn hs v hv'
      have hb0 : 0 ≤ ((row : ℤ) + 1) * (2 * (k : ℤ) + 1) := mul_nonneg (by omega) (by omega)
      have hb1 : ((row : ℤ) + 1) * (2 * (k : ℤ) + 1) ≤ 2 * (k : ℤ) * (2 * (k : ℤ) + 1) :=
        mul_le_mul_of_nonneg_right (by omega) (by omega)
      exact finishb v (by omega) (by omega)

/-- Witness for C2 at `d = 3`: four records per family, and the concrete
neighbor index 1 of the second `mx` plaquette is in range. -/
theorem geometry_counts_and_bounds_witness :
    (geometryMx 3).length = 4 ∧ (geometryMz 3).length = 4 ∧
    (0 ≤ (1 : ℤ) ∧ (1 : ℤ) < (3 : ℤ) ^ 2) := by
  have h := geometry_counts_and_bounds 3 (by decide) (by decide)
  refine ⟨by simpa using h.1, by simpa using h.2.1, ?_⟩
  exact h.2.2 (mxPlaq 3 1) (by decide) 1 (by decide)

lemma countMx_top_le_one (k : ℕ) (hk : 1 ≤ k) (v : ℤ) :
    (geometryMx (2 * k + 1)).countP (inTop v) ≤ 1 := by
  unfold geometryMx
  rw [numSyn_eq, List.countP_map]
  exact countP_range_le_one _ _ (fun i j hi hj hqi hqj =>
    mx_top_unique k hk v i j hi hj hqi hqj)

lemma countMx_bot_le_one (k : ℕ) (hk : 1 ≤ k) (v : ℤ) :
    (geometryMx (2 * k + 1)).countP (inBot v) ≤ 1 := by
  unfold geometryMx
  rw [numSyn_eq, List.countP_map]
  exact countP_range_le_one _ _ (fun i j hi hj hqi hqj =>
    mx_bot_unique k hk v i j hi hj hqi hqj)

lemma countMz_top_le_one (k : ℕ) (v : ℤ) :
    (geometryMz (2 * k + 1)).countP (inTop v) ≤ 1 := by
  unfold geometryMz
  rw [numSyn_eq, List.countP_map]
  exact countP_range_le_one _ _ (fun i j hi hj hqi hqj =>
    mz_top_unique k v i j hi hj hqi hqj)

lemma countMz_bot_le_one (k : ℕ) (v : ℤ) :
    (geometryMz (2 * k + 1)).countP (inBot v) ≤ 1 := by
  unfold geometryMz
  rw [numSyn_eq, List.countP_map]
  exact countP_range_le_one _ _ (fun i j hi hj hqi hqj =>
    mz_bot_unique k v i j hi hj hqi hqj)

/-- C8 (amended): for every odd `d ≥ 3`, every data position index occurs as
a neighbor in at most two `mx` records and at most two `mz` records (once as a
top neighbor and once as a bottom neighbor), and each of the four corner
positions occurs in zero or one record of each family. -/
theorem geometry_multiplicity (d : ℕ) (h3 : 3 ≤ d) (hodd : d % 2 = 1) :
    (∀ v : ℤ, countMx d v ≤ 2 ∧ countMz d v ≤ 2) ∧
    ∀ v ∈ ([0, (d : ℤ) - 1, (d : ℤ) * ((d : ℤ) - 1), (d : ℤ) ^ 2 - 1] : List ℤ),
      countMx d v ≤ 1 ∧ countMz d v ≤ 1 := by
  obtain ⟨k, rfl⟩ : ∃ k, d = 2 * k + 1 := ⟨d / 2, by omega⟩
  have hk : 1 ≤ k := by omega
  have e1 : (k : ℤ) * (2 * (k : ℤ) + 1) = 2 * ((k : ℤ) * (k : ℤ)) + (k : ℤ) := by ring
  have e2 : (2 * (k : ℤ) - 1) * (2 * (k : ℤ) + 1) = 4 * ((k : ℤ) * (k : ℤ)) - 1 := by ring
  have e4 : 2 * (k : ℤ) * (2 * (k : ℤ) + 1) = 4 * ((k : ℤ) * (k : ℤ)) + 2 * (k : ℤ) := by ring
  have hKK : (k : ℤ) ≤ (k : ℤ) * (k : ℤ) := by
    have := mul_le_mul_of_nonneg_right (show (1 : ℤ) ≤ (k : ℤ) by omega)
      (show (0 : ℤ) ≤ (k : ℤ) by omega)
    omega
  have hle2x : ∀ v : ℤ, countMx (2 * k + 1) v ≤ 2 := fun v => by
    have h := countP_or_le (inTop v) (inBot v) (geometryMx (2 * k + 1))
    have h1 := countMx_top_le_one k hk v
    have h2 := countMx_bot_le_one k hk v
    show (geometryMx (2 * k + 1)).countP (fun p => inTop v p || inBot v p) ≤ 2
    omega
  have hle2z : ∀ v : ℤ, countMz (2 * k + 1) v ≤ 2 := fun v => by
    have h := countP_or_le (inTop v) (inBot v) (geometryMz (2 * k + 1))
    have h1 := countMz_top_le_one k v
    have h2 := countMz_bot_le_one k v
    show (geometryMz (2 * k + 1)).countP (fun p => inTop v p || inBot v p) ≤ 2
    omega
  have hcomb_topx : ∀ w : ℤ, (geometryMx (2 * k + 1)).countP (inTop w) = 0 →
      countMx (2 * k + 1) w ≤ 1 := fun w h0 => by
    have h := countP_or_le (inTop w) (inBot w) (geometryMx (2 * k + 1))
    have h1 := countMx_bot_le_one k hk w
    show (geometryMx (2 * k + 1)).countP (fun p => inTop w p || inBot w p) ≤ 1
    omega
  have hcomb_botx : ∀ w : ℤ, (geometryMx (2 * k + 1)).countP (inBot w) = 0 →
      countMx (2 * k + 1) w ≤ 1 := fun w h0 => by
    have h := countP_or_le (inTop w) (inBot w) (geometryMx (2 * k + 1))
    have h1 := countMx_top_le_one k hk w
    show (geometryMx (2 * k + 1)).countP (fun p => inTop w p || inBot w p) ≤ 1
    omega
  have hcomb_topz : ∀ w : ℤ, (geometryMz (2 * k + 1)).countP (inTop w) = 0 →
      countMz (2 * k + 1) w ≤ 1 := fun w h0 => by
    have h := countP_or_le (inTop w) (inBot w) (geometryMz (2 * k + 1))
    have h1 := countMz_bot_le_one k w
    show (geometryMz (2 * k + 1)).countP (fun p => inTop w p || inBot w p) ≤ 1
    omega
  have hcomb_botz : ∀ w : ℤ, (geometryMz (2 * k + 1)).countP (inBot w) = 0 →
      countMz (2 * k + 1) w ≤ 1 := fun w h0 => by
    have h := countP_or_le (inTop w) (inBot w) (geometryMz (2 * k + 1))
    have h1 := countMz_top_le_one k w
    show (geometryMz (2 * k + 1)).countP (fun p => inTop w p || inBot w p) ≤ 1
    omega
  have hmem_x : ∀ (q : Plaq → Bool),
      (∀ syn, syn < 2 * k * (k + 1) → ¬ q (mxPlaq (2 * k + 1) syn)) →
      (geometryMx (2 * k + 1)).countP q = 0 := fun q hq => by
    rw [List.countP_eq_zero]
    intro p hp
    simp only [geometryMx, List.mem_map, List.mem_range, numSyn_eq] at hp
    obtain ⟨syn, hs, rfl⟩ := hp
    exact hq syn hs
  have hmem_z : ∀ (q : Plaq → Bool),
      (∀ syn, syn < 2 * k * (k + 1) → ¬ q (mzPlaq (2 * k + 1) syn)) →
      (geometryMz (2 * k + 1)).countP q = 0 := fun q hq => by
    rw [List.countP_eq_zero]
    intro p hp
    simp only [geometryMz, List.mem_map, List.mem_range, numSyn_eq] at hp
    obtain ⟨syn, hs, rfl⟩ := hp
    exact hq syn hs
  refine ⟨fun v => ⟨hle2x v, hle2z v⟩, ?_⟩
  intro v hv
  simp only [List.mem_cons, List.not_mem_nil, or_false] at hv
  rcases hv with rfl | rfl | rfl | rfl
  · -- corner 0 (top-left): never a top of `mx`, never a bottom of `mz`
    refine ⟨hcomb_topx 0 (hmem_x _ fun syn hs hv => ?_), hcomb_botz 0 (hmem_z _ fun syn hs hv => ?_)⟩
    · rcases mx_top_mem k syn hk hs 0 hv with
        ⟨h1, δ, hδ, hveq⟩ | ⟨row, off, δ, hsyn, hoff, hr1, hr2, hδ, hveq⟩
      · omega
      · rcases Nat.eq_or_lt_of_le hr1 with h1 | h1
        · have hz : ((row : ℤ) - 1) * (2 * (k : ℤ) + 1) = 0 := by
            have hr : (row : ℤ) = 1 := by omega
            rw [hr]; ring
          omega
        · have hb : 1 * (2 * (k : ℤ) + 1) ≤ ((row : ℤ) - 1) * (2 * (k : ℤ) + 1) :=
            mul_le_mul_of_nonneg_right (by omega) (by omega)
          omega
    · obtain ⟨row, off, δ, hsyn, hoff, hrow, hδ, hc0, hc1, hveq⟩ := mz_bot_mem k syn hs 0 hv
      have hb : 1 * (2 * (k : ℤ) + 1) ≤ ((row : ℤ) + 1) * (2 * (k : ℤ) + 1) :=
        mul_le_mul_of_nonneg_right (by omega) (by omega)
      omega
  · -- corner d-1 (top-right): never a bottom of `mx`, never a bottom of `mz`
    have e7 : ((2 * k + 1 : ℕ) : ℤ) - 1 = 2 * (k : ℤ) := by push_cast; ring
    rw [e7]
    refine ⟨hcomb_botx _ (hmem_x _ fun syn hs hv => ?_), hcomb_botz _ (hmem_z _ fun syn hs hv => ?_)⟩
    · rcases mx_bot_mem k syn hk hs _ hv with
        ⟨h1, δ, hδ, hveq⟩ | ⟨row, off, δ, hsyn, hoff, hr1, hr2, hδ, hveq⟩
      · have h1Z : (syn : ℤ) < (k : ℤ) := by exact_mod_cast h1
        omega
      · have hb : 1 * (2 * (k : ℤ) + 1) ≤ (row : ℤ) * (2 * (k : ℤ) + 1) :=
          mul_le_mul_of_nonneg_right (by omega) (by omega)
        omega
    · obtain ⟨row, off, δ, hsyn, hoff, hrow, hδ, hc0, hc1, hveq⟩ := mz_bot_mem k syn hs _ hv
      have hb : 1 * (2 * (k : ℤ) + 1) ≤ ((row : ℤ) + 1) * (2 * (k : ℤ) + 1) :=
        mul_le_mul_of_nonneg_right (by omega) (by omega)
      omega
  · -- corner d(d-1) (bottom-left): never a top of `mx`, never a top of `mz`
    have e5 : ((2 * k + 1 : ℕ) : ℤ) * (((2 * k + 1 : ℕ) : ℤ) - 1) =
        4 * ((k : ℤ) * (k : ℤ)) + 2 * (k : ℤ) := by push_cast; ring
    rw [e5]
    refine ⟨hcomb_topx _ (hmem_x _ fun syn hs hv => ?_), hcomb_topz _ (hmem_z _ fun syn hs hv => ?_)⟩
    · rcases mx_top_mem k syn hk hs _ hv with
        ⟨h1, δ, hδ, hveq⟩ | ⟨row, off, δ, hsyn, hoff, hr1, hr2, hδ, hveq⟩
      · have hc : (k : ℤ) * (2 * (k : ℤ) + 1) ≤ (syn : ℤ) := by exact_mod_cast h1
        omega
      · have hb0 : 0 ≤ ((row : ℤ) - 1) * (2 * (k : ℤ) + 1) :=
          mul_nonneg (by omega) (by omega)
        have hb1 : ((row : ℤ) - 1) * (2 * (k : ℤ) + 1) ≤
            (2 * (k : ℤ) - 1) * (2 * (k : ℤ) + 1) :=
          mul_le_mul_of_nonneg_right (by omega) (by omega)
        omega
    · obtain ⟨row, off, δ, hsyn, hoff, hrow, hδ, hc0, hc1, hveq⟩ := mz_top_mem k syn hs _ hv
      have hb1 : (row : ℤ) * (2 * (k : ℤ) + 1) ≤ (2 * (k : ℤ) - 1) * (2 * (k : ℤ) + 1) :=
        mul_le_mul_of_nonneg_right (by omega) (by omega)
      omega
  · -- corner d²-1 (bottom-right): never a bottom of `mx`, never a top of `mz`
    have e6 : ((2 * k + 1 : ℕ) : ℤ) ^ 2 - 1 = 4 * ((k : ℤ) * (k : ℤ)) + 4 * (k : ℤ) := by
      push_cast; ring
    rw [e6]
    refine ⟨hcomb_botx _ (hmem_x _ fun syn hs hv => ?_), hcomb_topz _ (hmem_z _ fun syn hs hv => ?_)⟩
    · rcases mx_bot_mem k syn hk hs _ hv with
        ⟨h1, δ, hδ, hveq⟩ | ⟨row, off, δ, hsyn, hoff, hr1, hr2, hδ, hveq⟩
      · have h1Z : (syn : ℤ) < (k : ℤ) := by exact_mod_cast h1
        omega
      · rcases Nat.eq_or_lt_of_le hr2 with h1 | h1
        · have hpar : (row : ℤ) % 2 = 0 := by omega
          have hprod : (row : ℤ) * (2 * (k : ℤ) + 1) =
              4 * ((k : ℤ) * (k : ℤ)) + 2 * (k : ℤ) := by
            have hr : (row : ℤ) = 2 * (k : ℤ) := by omega
            rw [hr]; ring
          omega
        · have hb1 : (row : ℤ) * (2 * (k : ℤ) + 1) ≤
              (2 * (k : ℤ) - 1) * (2 * (k : ℤ) + 1) :=
            mul_le_mul_of_nonneg_right (by omega) (by omega)
          omega
    · obtain ⟨row, off, δ, hsyn, hoff, hrow, hδ, hc0, hc1, hveq⟩ := mz_top_mem k syn hs _ hv
      have hb1 : (row : ℤ) * (2 * (k : ℤ) + 1) ≤ (2 * (k : ℤ) - 1) * (2 * (k : ℤ) + 1) :=
        mul_le_mul_of_nonneg_right (by omega) (by omega)
      omega

/-- Witness for C8 (amended) at `d = 3`: the center index 4 occurs in at most
two records of each family; the corner index 0 occurs in at most one. -/
theorem geometry_multiplicity_witness :
    (countMx 3 4 ≤ 2 ∧ countMz 3 4 ≤ 2) ∧ (countMx 3 0 ≤ 1 ∧ countMz 3 0 ≤ 1) := by
  have h := geometry_multiplicity 3 (by decide) (by decide)
  exact ⟨h.1 4, h.2 0 (by simp)⟩

/-- Counterexample to C8 as stated: for `d = 3`, the center data index 4 is a
neighbor of two distinct X-type plaquette records, not at most one. -/
theorem geometry_multiplicity_counterexample : ¬ countMx 3 (4 : ℤ) ≤ 1 := by decide

lemma mzPlaq_syn (d syn : ℕ) : (mzPlaq d syn).syn = syn := by
  dsimp only [mzPlaq]
  split_ifs <;> rfl

/-- C9 (amended): the Z-type family is laid out with `per_row = (d+1)/2`
plaquettes per row spanning `d-1` rows (row indices `0..d-2`, each attained),
where within each row the last plaquette of an even row has its right neighbor
pair truncated to absent, the first plaquette of an odd row has its left pair
truncated, and every other neighbor slot is present. -/
theorem mz_layout (d : ℕ) (h3 : 3 ≤ d) (hodd : d % 2 = 1) :
    (geometryMz d).length = (d - 1) * ((d + 1) / 2) ∧
    (∀ p ∈ geometryMz d, p.syn / ((d + 1) / 2) < d - 1) ∧
    (∀ r, r < d - 1 → ∃ p ∈ geometryMz d, p.syn / ((d + 1) / 2) = r) ∧
    (∀ p ∈ geometryMz d,
      (p.top_r = none ↔
        (p.syn / ((d + 1) / 2)) % 2 = 0 ∧ p.syn % ((d + 1) / 2) = (d + 1) / 2 - 1) ∧
      (p.bot_r = none ↔
        (p.syn / ((d + 1) / 2)) % 2 = 0 ∧ p.syn % ((d + 1) / 2) = (d + 1) / 2 - 1) ∧
      (p.top_l = none ↔
        (p.syn / ((d + 1) / 2)) % 2 = 1 ∧ p.syn % ((d + 1) / 2) = 0) ∧
      (p.bot_l = none ↔
        (p.syn / ((d + 1) / 2)) % 2 = 1 ∧ p.syn % ((d + 1) / 2) = 0)) := by
  obtain ⟨k, rfl⟩ : ∃ k, d = 2 * k + 1 := ⟨d / 2, by omega⟩
  have hk : 1 ≤ k := by omega
  have hpos : 0 < k + 1 := Nat.succ_pos k
  refine ⟨?_, ?_, ?_, ?_⟩
  · simp [geometryMz, numSyn_eq, per_row_z_eq]
  · intro p hp
    simp only [geometryMz, List.mem_map, List.mem_range, numSyn_eq] at hp
    obtain ⟨syn, hs, rfl⟩ := hp
    rw [mzPlaq_syn, per_row_z_eq]
    have := (Nat.div_lt_iff_lt_mul hpos).2 hs
    omega
  · intro r hr
    have hmem : (k + 1) * r < numSyn (2 * k + 1) := by
      rw [numSyn_eq]
      have h1 : (k + 1) * (r + 1) ≤ (k + 1) * (2 * k) :=
        Nat.mul_le_mul_left (k + 1) (by omega)
      have h0 : (k + 1) * r + (k + 1) * 1 = (k + 1) * (r + 1) := by ring
      have h2 : (k + 1) * (2 * k) = 2 * k * (k + 1) := Nat.mul_comm _ _
      omega
    refine ⟨mzPlaq (2 * k + 1) ((k + 1) * r), ?_, ?_⟩
    · simp only [geometryMz, List.mem_map, List.mem_range]
      exact ⟨(k + 1) * r, hmem, rfl⟩
    · rw [mzPlaq_syn, per_row_z_eq]
      exact Nat.mul_div_cancel_left r hpos
  · intro p hp
    simp only [geometryMz, List.mem_map, List.mem_range, numSyn_eq] at hp
    obtain ⟨syn, hs, rfl⟩ := hp
    obtain ⟨row, off, hsyn, hoff, hrow, hcase⟩ := mzPlaq_char k syn hs
    have hrow_eq : syn / (k + 1) = row := by
      rw [hsyn, Nat.mul_add_div hpos, Nat.div_eq_of_lt (by omega)]
      omega
    have hoff_eq : syn % (k + 1) = off := by
      rw [hsyn, Nat.mul_add_mod]
      exact Nat.mod_eq_of_lt (by omega)
    rcases hcase with ⟨hp2, ho, heq⟩ | ⟨hp2, ho, heq⟩ | ⟨hc1, hc2, heq⟩
    · rw [heq]
      simp [per_row_z_eq, hrow_eq, hoff_eq, hp2, ho]
    · rw [heq]
      simp [per_row_z_eq, hrow_eq, hoff_eq, hp2, ho]
    · rw [heq]
      simp [per_row_z_eq, hrow_eq, hoff_eq, hc1, hc2]

/-- Witness for C9 (amended) at `d = 3`: four records in two rows of two,
every row index below `d - 1 = 2`. -/
theorem mz_layout_witness :
    (geometryMz 3).length = 4 ∧ (mzPlaq 3 3).syn / ((3 + 1) / 2) < 3 - 1 := by
  have h := mz_layout 3 (by decide) (by decide)
  exact ⟨by simpa using h.1, h.2.1 (mzPlaq 3 3) (by decide)⟩

/-- Counterexample to C9 as stated: for `d = 3` the claimed layout spans
`d = 3` rows (indices `0..2`), but no Z-type record lies in row `2` — the
family only occupies rows `0` and `1`. -/
theorem mz_layout_counterexample :
    ¬ ∃ p ∈ geometryMz 3, p.syn / ((3 + 1) / 2) = 3 - 1 := by decide

/-- Witness for C3: one stabilization round at `d = 3` on a fresh lattice. -/
theorem stabilize_characterization_witness :
    stabilize 3 { T := -1, cregs := [], ops := [] } = .ok
      { T := 0, cregs := [8],
        ops := (geometryMx 3).flatMap xProtocolOps ++ (geometryMz 3).flatMap zProtocolOps
          ++ (List.range 4).map (fun i => Op.measure (QRef.mz i) 0 i)
          ++ (List.range 4).map (fun i => Op.measure (QRef.mx i) 0 (4 + i))
          ++ (List.range 4).map (fun i => Op.reset (QRef.mz i))
          ++ (List.range 4).map (fun i => Op.reset (QRef.mx i))
          ++ [Op.barrier] } := by
  rw [stabilize_characterization 3 { T := -1, cregs := [], ops := [] } (by decide)]
  decide
